import Mathlib

/-!
Verification of the `gocov` coverage renderer (`gocov.go`) against its
natural-language specification.

The program is embedded shallowly:

* Source bytes are `List Nat` (newline is byte 10, tab is byte 9).
* `cutAfterIndexN` mirrors the Go function of the same name.  The Go loop
  `for i < len(s)-1 { if s[i] == sep { n--; if n == 0 { break } }; i++ }`
  is embedded as `cutScan`, where the loop index `i` is represented by the
  suffix `s[i:]` still to be scanned (the loop body never inspects the
  last byte, hence the singleton base case), and the returned number is the
  final value of `i`.  Go's slice expressions `s[:i]` / `s[i:]` panic when
  the index is out of range, so the embedding returns `Option`: `none`
  models the run-time panic.
* `colorlines` mirrors the Go function of the same name; instead of writing
  to stdout it returns the list of `Emit` events, in order, that the Go
  code prints (`none` when some cut panics).  `Emit.plain s` is
  `fmt.Printf("%s", curr)` (the payload is an operand, printed verbatim),
  `Emit.colored c s` is `fmt.Printf(c.Bg(curr))` — here the payload sits
  inside the format string with no operands, so the bytes that reach stdout
  are its zero-operand format interpretation `printfNoArgs s` between the
  escape prefix and the reset escape — and `Emit.leftover s` is the final
  `fmt.Printf("%s%s\n", reset, src)` (the reset escape, the payload
  verbatim as an operand, then one extra newline byte).
* The path resolver (`findFile`, and the pure parts of `findPkgs`) works on
  Go strings modelled as `List Char`; the Go map `map[string]*Pkg` is an
  association list whose values are `Option Pkg` (`none` is a stored `nil`
  pointer), and indexing a missing key yields the zero value `nil`, so
  `mapLookup` flattens absent keys and stored `nil`s into `none` exactly as
  the Go code observes them.  `path.Dir`, `path.Base` and `filepath.Join`
  are standard-library collaborators, modelled for the slash-separated,
  already-clean import paths this program feeds them (Unix rules:
  `filepath.IsAbs p` is `p` starting with a slash).
-/

namespace Gocov

/-- Mirror of `trueColor` (gocov.go): an RGB true-color triple. -/
structure trueColor where
  r : Nat
  g : Nat
  b : Nat
deriving DecidableEq

/-- Mirror of `rgb` (gocov.go). -/
def rgb (r g b : Nat) : trueColor := ⟨r, g, b⟩

/-- Mirror of the global `red = rgb(48, 26, 31)` (gocov.go). -/
def red : trueColor := rgb 48 26 31

/-- Mirror of the global `green = rgb(18, 38, 30)` (gocov.go). -/
def green : trueColor := rgb 18 38 30

/-- Mirror of the global `yellow = rgb(204, 136, 26)` (gocov.go). -/
def yellow : trueColor := rgb 204 136 26

/-- Mirror of the global `dark = rgb(13, 17, 23)` (gocov.go). -/
def dark : trueColor := rgb 13 17 23

/-- The fields of `cover.ProfileBlock` read by `colorlines`
(`StartLine`, `EndLine`, `Count`; the column and statement-count fields are
never read by this program).  Go `int` is modelled as `Int`. -/
structure ProfileBlock where
  startLine : Int
  endLine : Int
  count : Int
deriving DecidableEq

/-- One print statement executed by `colorlines`:
`plain s` is `fmt.Printf("%s", curr)` with payload `s` as operand,
`colored c s` is `fmt.Printf(c.Bg(curr))` with payload `s` embedded in the
format string between the background escape for `c` and the reset escape,
and `leftover s` is the final `fmt.Printf("%s%s\n", reset, src)` (reset
escape, payload as operand, one appended newline).  The constructors record
the calls the program makes; `stripEmit` below gives the bytes each call
contributes to stdout. -/
inductive Emit where
  | plain : List Nat → Emit
  | colored : trueColor → List Nat → Emit
  | leftover : List Nat → Emit
deriving DecidableEq

/-- Model of the Go `fmt` package processing a format string with no
operands, as happens at gocov.go lines 106 and 108 where the colored text
is the format string: bytes other than `%` (byte 37) are copied verbatim;
`%%` prints one `%`; `%` followed by any other byte `v` prints the
too-few-operands diagnostic `%!` `v` `(MISSING)` and continues after `v`;
a lone trailing `%` prints `%!(NOVERB)`.  Go additionally parses flag,
width and precision characters between `%` and the verb; this model takes
the byte after `%` as the verb, which agrees with Go on every format whose
`%` signs are followed directly by a verb or by another `%` — in
particular it is the identity exactly on `%`-free text, the only case the
theorems below rely on. -/
def printfNoArgs : List Nat → List Nat
  | [] => []
  | b :: rest =>
    if b = 37 then
      match rest with
      | [] => [37, 33, 40, 78, 79, 86, 69, 82, 66, 41]
      | v :: rest' =>
        if v = 37 then 37 :: printfNoArgs rest'
        else [37, 33, v, 40, 77, 73, 83, 83, 73, 78, 71, 41] ++ printfNoArgs rest'
    else b :: printfNoArgs rest

/-- The bytes an event contributes to stdout once every ANSI color escape
sequence is stripped.  A `plain` payload is a `Printf` operand and arrives
verbatim.  A `colored` payload is part of the format string of a `Printf`
call with no operands, so its bytes pass through the zero-operand format
interpretation; the escape prefix and the reset escape around it contain no
`%` and are stripped (exact whenever the payload does not end in a bare
`%`, in particular for every `%`-free payload).  The final `leftover`
print passes its payload as an operand and appends one newline byte
(`"%s%s\n"`). -/
def stripEmit : Emit → List Nat
  | Emit.plain s => s
  | Emit.colored _ s => printfNoArgs s
  | Emit.leftover s => s ++ [10]

/-- Concatenation of an event list's escape-stripped bytes. -/
def stripConcat (evs : List Emit) : List Nat :=
  (evs.map stripEmit).flatten

/-- Concatenation of the bytes printed inside the red background escape
(the uncovered color): the red-wrapped payloads after the zero-operand
format interpretation they pass through. -/
def redContent (evs : List Emit) : List Nat :=
  (evs.filterMap fun e =>
    match e with
    | Emit.colored c s => if c = red then some (printfNoArgs s) else none
    | _ => none).flatten

/-- Mirror of `bytes.ReplaceAll(src, []byte{9}, []byte("  "))`
(gocov.go line 98): every tab byte becomes two space bytes. -/
def tabExpand (src : List Nat) : List Nat :=
  (src.map fun b => if b = 9 then [32, 32] else [b]).flatten

/-- The scanning loop of `cutAfterIndexN` (gocov.go lines 121-130):
`for i < len(s)-1 { if s[i] == sep { n--; if n == 0 { break } }; i++ }`.
The first argument list is the suffix of the buffer from the loop index on;
the loop guard `i < len(s)-1` fails exactly when that suffix has at most
one element (the last byte is never inspected).  The result is the value
of `i` at loop exit, counted from the start of the given list. -/
def cutScan (sep : Nat) : List Nat → Int → Nat
  | [], _ => 0
  | [_], _ => 0
  | a :: b :: rest, n =>
    if a = sep ∧ n - 1 = 0 then 0
    else cutScan sep (b :: rest) (if a = sep then n - 1 else n) + 1

/-- Mirror of `cutAfterIndexN` (gocov.go lines 117-133).  After the loop the
index is incremented once more and the buffer is split as `s[:i], s[i:]`;
Go panics when a slice index exceeds the length (which happens exactly for
an empty `s` with `n ≥ 1`), modelled by `none`. -/
def cutAfterIndexN (s : List Nat) (sep : Nat) (n : Int) : Option (List Nat × List Nat) :=
  if n ≤ 0 then some (s, [])
  else
    let i := cutScan sep s n + 1
    if i ≤ s.length then some (s.take i, s.drop i) else none

/-- The block loop plus trailing print of `colorlines`
(gocov.go lines 99-114), after the tab replacement: `prevEnd` starts at 0,
each block first cuts and prints `block.StartLine - prevEnd` chunks plain,
then cuts and prints `block.EndLine - block.StartLine` chunks wrapped in
the red (count 0) or green (count > 0) background, then sets
`prevEnd = block.EndLine`; at the end a nonempty remainder is printed
reset-prefixed with a trailing newline. -/
def colorLoop : List Nat → List ProfileBlock → Int → Option (List Emit)
  | src, [], _ => some (if src ≠ [] then [Emit.leftover src] else [])
  | src, b :: bs, prevEnd =>
    match cutAfterIndexN src 10 (b.startLine - prevEnd) with
    | none => none
    | some (curr, src1) =>
      match cutAfterIndexN src1 10 (b.endLine - b.startLine) with
      | none => none
      | some (curr2, src2) =>
        match colorLoop src2 bs b.endLine with
        | none => none
        | some evs =>
          some (Emit.plain curr ::
            Emit.colored (if b.count = 0 then red else green) curr2 :: evs)

/-- Mirror of `colorlines` (gocov.go lines 96-115): replace tabs by two
spaces, then run the block loop.  The result is the ordered list of print
events, or `none` when a cut panics. -/
def colorlines (src : List Nat) (blocks : List ProfileBlock) : Option (List Emit) :=
  colorLoop (tabExpand src) blocks 0

/-- Decomposition of a byte buffer into its newline-delimited chunks: every
chunk except possibly the last ends with the newline that terminates it,
and the last chunk is unterminated when the buffer does not end in a
newline.  `chunksOf` is the line structure that the newline-delimited
chunks of the spec refer to; its length is the line count of the file. -/
def chunksOf : List Nat → List (List Nat)
  | [] => []
  | a :: rest =>
    if a = 10 then [10] :: chunksOf rest
    else
      match chunksOf rest with
      | [] => [[a]]
      | c :: cs => (a :: c) :: cs

/-- Modelled from the spec (the per-block description of Variant A, used as
the reference side of the refinement claims): the renderer goes down the
chunk list, and for each block, in order, emits the next
`StartLine - prevEndLine` chunks uncolored, then the next
`EndLine - StartLine` chunks wrapped in the red (count 0) or green
(count > 0) background, then sets `prevEndLine` to the block's `EndLine`;
after the last block any remaining unconsumed chunks are emitted
reset-prefixed. -/
def renderSpecA : List (List Nat) → List ProfileBlock → Int → List Emit
  | cs, [], _ => if cs.flatten ≠ [] then [Emit.leftover cs.flatten] else []
  | cs, b :: bs, prevEnd =>
    Emit.plain ((cs.take (b.startLine - prevEnd).toNat).flatten) ::
    Emit.colored (if b.count = 0 then red else green)
      (((cs.drop (b.startLine - prevEnd).toNat).take (b.endLine - b.startLine).toNat).flatten) ::
    renderSpecA (cs.drop ((b.startLine - prevEnd).toNat + (b.endLine - b.startLine).toNat))
      bs b.endLine

/-- Block lists that keep the streaming renderer chunk-aligned: relative to
the running `prevEnd` (initially 0) and a total line count `N`, each block
starts strictly after the previous one ended, spans at least one line, and
ends within the file. -/
def blocksOk : Int → Int → List ProfileBlock → Bool
  | _, _, [] => true
  | prevEnd, n, b :: bs =>
    (prevEnd + 1 ≤ b.startLine && (b.startLine + 1 ≤ b.endLine && b.endLine ≤ n)) &&
      blocksOk b.endLine n bs

/-- Go strings, modelled as character lists so that every operation is
structural. -/
abbrev GoStr := List Char

/-- Mirror of `strings.HasPrefix`. -/
def hasPrefix (s p : GoStr) : Bool := p.isPrefixOf s

/-- Mirror of `filepath.IsAbs` under Unix path rules: a path is absolute
when it begins with a slash. -/
def isAbs (s : GoStr) : Bool := hasPrefix s ['/']

/-- Mirror of `path.Dir` for the already-clean slash-separated import paths
this program passes it: everything before the final slash, or `"."` when
there is no slash (the `path.Clean` normalization that `path.Dir` would
additionally apply is the identity on such paths). -/
def pathDir (s : GoStr) : GoStr :=
  let r := s.reverse.dropWhile (fun c => c ≠ '/')
  if r.isEmpty then ['.'] else (r.drop 1).reverse

/-- Mirror of `path.Base` for nonempty clean paths: everything after the
final slash. -/
def pathBase (s : GoStr) : GoStr :=
  if s.isEmpty then ['.'] else (s.reverse.takeWhile (fun c => c ≠ '/')).reverse

/-- Mirror of `filepath.Join` for a nonempty clean directory and base. -/
def filepathJoin (dir base : GoStr) : GoStr := dir ++ '/' :: base

/-- Mirror of `Pkg` (gocov.go lines 136-142): one `go list -e -json` record.
The `Error *struct{ Err string }` pointer is `Option GoStr` holding `Err`. -/
structure Pkg where
  importPath : GoStr
  dir : GoStr
  pkgError : Option GoStr
deriving DecidableEq

/-- The Go map `map[string]*Pkg`, as an association list (newest binding
first) whose values are the stored pointers.  Go map indexing returns the
zero value `nil` for a missing key, so the observed pointer for a key is
the flattening of the first binding: `none` for both a missing key and a
stored `nil` placeholder. -/
def mapLookup (m : List (GoStr × Option Pkg)) (k : GoStr) : Option Pkg :=
  (m.lookup k).join

/-- Mirror of the error message built by
`fmt.Errorf("did not find package for %s in go list output", file)`. -/
def notFoundMsg (file : GoStr) : GoStr :=
  "did not find package for ".toList ++ file ++ " in go list output".toList

/-- Mirror of `findFile` (gocov.go lines 189-203).  `Except.error` carries
the error message. -/
def findFile (pkgs : List (GoStr × Option Pkg)) (file : GoStr) : Except GoStr GoStr :=
  if hasPrefix file ['.'] || isAbs file then Except.ok file
  else
    match mapLookup pkgs (pathDir file) with
    | some pkg =>
      if pkg.dir ≠ [] then Except.ok (filepathJoin pkg.dir (pathBase file))
      else
        match pkg.pkgError with
        | some e => Except.error e
        | none => Except.error (notFoundMsg file)
    | none => Except.error (notFoundMsg file)

/-- The pure seeding phase of `findPkgs` (gocov.go lines 146-158): walk the
profile file names in order; skip relative and absolute paths; for each new
directory component, store a `nil` placeholder in the map and append the
package path to the query list. -/
def seedPkgs (fileNames : List GoStr) : List (GoStr × Option Pkg) × List GoStr :=
  fileNames.foldl
    (fun acc fn =>
      if hasPrefix fn ['.'] || isAbs fn then acc
      else
        let pkg := pathDir fn
        if (acc.1.lookup pkg).isNone then ((pkg, none) :: acc.1, acc.2 ++ [pkg])
        else acc)
    ([], [])

/-- The pure decoding phase of `findPkgs` (gocov.go lines 175-185): each
decoded record overwrites the binding for its import path. -/
def applyRecords (m : List (GoStr × Option Pkg)) (recs : List Pkg) :
    List (GoStr × Option Pkg) :=
  recs.foldl (fun m r => (r.importPath, some r) :: m) m

/-! ### Facts about the scanning loop -/

/-- The loop index at exit is at most `len(s) - 1` for a nonempty buffer:
the loop guard `i < len(s)-1` never lets `i` pass the last byte. -/
theorem cutScan_lt_length (sep : Nat) (s : List Nat) (n : Int) (h : s ≠ []) :
    cutScan sep s n < s.length := by
  induction s, n using cutScan.induct sep with
  | case1 n => simp at h
  | case2 a n => simp [cutScan]
  | case3 a b rest n hcond => simp [cutScan, hcond]
  | case4 a b rest n hcond ih =>
    simp only [cutScan, if_neg hcond, List.length_cons]
    exact Nat.succ_lt_succ (ih (by simp))

/-- Whenever `cutAfterIndexN` returns, the two slices reassemble the whole
buffer: no byte is dropped or duplicated. -/
theorem cutAfterIndexN_parts (s : List Nat) (sep : Nat) (n : Int)
    (p : List Nat × List Nat) (h : cutAfterIndexN s sep n = some p) :
    p.1 ++ p.2 = s := by
  simp only [cutAfterIndexN] at h
  split at h
  · simp only [Option.some.injEq] at h
    subst h
    simp
  · split at h
    · simp only [Option.some.injEq] at h
      subst h
      simp
    · exact absurd h (by simp)

/-- When the separator occurs fewer than `n` times before the last byte,
the loop runs off the end: the exit index is `len(s) - 1`. -/
theorem cutScan_absorb (sep : Nat) (s : List Nat) (n : Int) (h1 : 1 ≤ n)
    (h2 : (s.dropLast.count sep : Int) < n) : cutScan sep s n = s.length - 1 := by
  induction s, n using cutScan.induct sep with
  | case1 n => rfl
  | case2 a n => rfl
  | case3 a b rest n hcond =>
    exfalso
    obtain ⟨rfl, hn⟩ := hcond
    have hd : (a :: b :: rest).dropLast = a :: (b :: rest).dropLast := rfl
    rw [hd] at h2
    simp [List.count_cons] at h2
    omega
  | case4 a b rest n hcond ih =>
    have hd : (a :: b :: rest).dropLast = a :: (b :: rest).dropLast := rfl
    rw [hd] at h2
    simp only [List.count_cons, beq_iff_eq] at h2
    simp only [cutScan, if_neg hcond, List.length_cons]
    by_cases ha : a = sep
    · have hn : ¬(n - 1 = 0) := fun hh => hcond ⟨ha, hh⟩
      simp only [if_pos ha] at ih ⊢
      rw [if_pos ha] at h2
      have heq := ih (by omega) (by push_cast at h2 ⊢; omega)
      rw [heq]
      simp only [List.length_cons]
      omega
    · simp only [if_neg ha] at ih ⊢
      rw [if_neg ha] at h2
      have heq := ih h1 (by push_cast at h2 ⊢; omega)
      rw [heq]
      simp only [List.length_cons]
      omega

/-- Absorption: a nonempty buffer holding fewer than `n` separators before
its last byte is returned whole, with nothing left over. -/
theorem cut_absorb (s : List Nat) (sep : Nat) (n : Int) (hs : s ≠ []) (h1 : 1 ≤ n)
    (h2 : (s.dropLast.count sep : Int) < n) : cutAfterIndexN s sep n = some (s, []) := by
  unfold cutAfterIndexN
  rw [if_neg (by omega)]
  have hlen : 1 ≤ s.length := List.length_pos.mpr hs
  have h3 := cutScan_absorb sep s n h1 h2
  simp only [h3]
  have h4 : s.length - 1 + 1 = s.length := by omega
  rw [h4, if_pos (le_refl _)]
  simp

/-- The loop breaks at the first separator when asked for one chunk,
provided that separator is not the last byte. -/
theorem cutScan_first (sep : Nat) (m B : List Nat) (hm : sep ∉ m) (hB : B ≠ []) :
    cutScan sep (m ++ sep :: B) 1 = m.length := by
  induction m with
  | nil =>
    cases B with
    | nil => exact absurd rfl hB
    | cons b B' => simp [cutScan]
  | cons x m' ih =>
    have hx : x ≠ sep := fun hh => hm (hh ▸ List.mem_cons_self x m')
    have hm' : sep ∉ m' := fun hh => hm (List.mem_cons_of_mem x hh)
    cases hsplit : m' ++ sep :: B with
    | nil => exact absurd hsplit (by simp)
    | cons y t =>
      have hcx : ¬(x = sep ∧ (1 : Int) - 1 = 0) := fun hh => hx hh.1
      have hlist : (x :: m') ++ sep :: B = x :: y :: t := by simp [hsplit]
      rw [hlist]
      simp only [cutScan, if_neg hcx, if_neg hx]
      rw [← hsplit, ih hm']
      simp

/-- Stepping over one whole separator-terminated chunk: when more than one
chunk is requested and more input follows, the scan crosses the chunk and
continues with one chunk fewer. -/
theorem cutScan_step (sep : Nat) (m B : List Nat) (n : Int) (hm : sep ∉ m)
    (hB : B ≠ []) (hn : 2 ≤ n) :
    cutScan sep (m ++ sep :: B) n = m.length + 1 + cutScan sep B (n - 1) := by
  induction m with
  | nil =>
    cases B with
    | nil => exact absurd rfl hB
    | cons b B' =>
      have hc : ¬(n - 1 = 0) := by omega
      rw [List.nil_append]
      simp only [cutScan, true_and, if_true]
      rw [if_neg hc]
      simp only [List.length_nil]
      omega
  | cons x m' ih =>
    have hx : x ≠ sep := fun hh => hm (hh ▸ List.mem_cons_self x m')
    have hm' : sep ∉ m' := fun hh => hm (List.mem_cons_of_mem x hh)
    cases hsplit : m' ++ sep :: B with
    | nil => exact absurd hsplit (by simp)
    | cons y t =>
      have hcx : ¬(x = sep ∧ n - 1 = 0) := fun hh => hx hh.1
      have hlist : (x :: m') ++ sep :: B = x :: y :: t := by simp [hsplit]
      rw [hlist]
      simp only [cutScan, if_neg hcx, if_neg hx]
      rw [← hsplit, ih hm']
      simp only [List.length_cons]
      omega

/-! ### The chunk structure of a buffer -/

/-- Well-formed chunk lists: every chunk but the last is a newline-free body
followed by its terminating newline, and the last chunk carries no newline
before its final byte (it may or may not be newline-terminated). -/
inductive ChunksWF : List (List Nat) → Prop
  | nil : ChunksWF []
  | single (c : List Nat) : c ≠ [] → 10 ∉ c.dropLast → ChunksWF [c]
  | cons (m : List Nat) (cs : List (List Nat)) : 10 ∉ m → cs ≠ [] → ChunksWF cs →
      ChunksWF ((m ++ [10]) :: cs)

/-- The chunk decomposition is well formed. -/
theorem chunksOf_wf (s : List Nat) : ChunksWF (chunksOf s) := by
  induction s with
  | nil => exact ChunksWF.nil
  | cons a rest ih =>
    by_cases ha : a = 10
    · subst ha
      simp only [chunksOf, if_pos rfl]
      cases hcs : chunksOf rest with
      | nil =>
        exact ChunksWF.single [10] (by simp) (by simp)
      | cons c cs =>
        have : ([10] : List Nat) = [] ++ [10] := rfl
        rw [this]
        exact ChunksWF.cons [] (c :: cs) (by simp) (by simp) (hcs ▸ ih)
    · simp only [chunksOf, if_neg ha]
      cases hcs : chunksOf rest with
      | nil =>
        exact ChunksWF.single [a] (by simp) (by simp)
      | cons c cs =>
        show ChunksWF ((a :: c) :: cs)
        rw [hcs] at ih
        cases ih with
        | single c hc hnl =>
          refine ChunksWF.single (a :: c) (by simp) ?_
          rw [List.dropLast_cons_of_ne_nil hc]
          simp only [List.mem_cons]
          rintro (h | h)
          · exact ha h.symm
          · exact hnl h
        | cons m cs' hm hne hwf =>
          have : a :: (m ++ [10]) = (a :: m) ++ [10] := rfl
          rw [this]
          refine ChunksWF.cons (a :: m) cs ?_ hne hwf
          simp only [List.mem_cons]
          rintro (h | h)
          · exact ha h.symm
          · exact hm h

/-- Flattening the chunk decomposition recovers the buffer. -/
theorem chunksOf_flatten (s : List Nat) : (chunksOf s).flatten = s := by
  induction s with
  | nil => rfl
  | cons a rest ih =>
    by_cases ha : a = 10
    · subst ha
      simp only [chunksOf, if_true, List.flatten_cons, ih]
      rfl
    · simp only [chunksOf, if_neg ha]
      cases hcs : chunksOf rest with
      | nil =>
        rw [hcs] at ih
        simp only [List.flatten_nil] at ih
        show ([[a]] : List (List Nat)).flatten = a :: rest
        simp [← ih]
      | cons c cs =>
        show ((a :: c) :: cs).flatten = a :: rest
        rw [hcs] at ih
        simp only [List.flatten_cons] at ih ⊢
        rw [List.cons_append, ih]

/-- A nonempty buffer has a nonempty chunk decomposition. -/
theorem chunksOf_ne_nil (s : List Nat) (h : s ≠ []) : chunksOf s ≠ [] := by
  intro hc
  apply h
  rw [← chunksOf_flatten s, hc]
  rfl

/-- Every chunk of a well-formed chunk list is nonempty. -/
theorem chunksWF_mem_ne_nil {cs : List (List Nat)} (h : ChunksWF cs) :
    ∀ c ∈ cs, c ≠ [] := by
  induction h with
  | nil => simp
  | single c hc _ => simpa using hc
  | cons m cs' _ _ _ ih =>
    intro c hc
    rcases List.mem_cons.mp hc with h | h
    · subst h
      simp
    · exact ih c h

/-- The flattening of a nonempty well-formed chunk list is nonempty. -/
theorem chunksWF_flatten_ne_nil {cs : List (List Nat)} (h : ChunksWF cs)
    (hne : cs ≠ []) : cs.flatten ≠ [] := by
  cases cs with
  | nil => exact absurd rfl hne
  | cons c cs' =>
    have hc : c ≠ [] := chunksWF_mem_ne_nil h c (List.mem_cons_self c cs')
    simp only [List.flatten_cons]
    intro hflat
    exact hc (List.append_eq_nil.mp hflat).1

/-- Dropping leading chunks preserves well-formedness. -/
theorem chunksWF_drop {cs : List (List Nat)} (h : ChunksWF cs) (k : Nat) :
    ChunksWF (cs.drop k) := by
  induction k generalizing cs with
  | zero => simpa using h
  | succ k ih =>
    cases h with
    | nil => exact ChunksWF.nil
    | single c hc hnl => simp [ChunksWF.nil]
    | cons m cs' hm hne hwf =>
      simp only [List.drop_succ_cons]
      exact ih hwf

/-- Crossing one whole separator-terminated chunk at the cut level: for a
request of at least two chunks with input following, the cut is the cut of
the remainder for one chunk fewer, with the crossed chunk prepended to the
before part (and it panics exactly when the smaller cut panics). -/
theorem cut_step (sep : Nat) (m B : List Nat) (n : Int) (hm : sep ∉ m)
    (hB : B ≠ []) (hn : 2 ≤ n) :
    cutAfterIndexN (m ++ sep :: B) sep n =
      (cutAfterIndexN B sep (n - 1)).map (fun p => ((m ++ [sep]) ++ p.1, p.2)) := by
  unfold cutAfterIndexN
  rw [if_neg (by omega : ¬n ≤ 0), if_neg (by omega : ¬n - 1 ≤ 0)]
  simp only [cutScan_step sep m B n hm hB hn]
  have hlen : (m ++ sep :: B).length = m.length + 1 + B.length := by
    simp only [List.length_append, List.length_cons]
    omega
  by_cases hle : cutScan sep B (n - 1) + 1 ≤ B.length
  · rw [if_pos hle, if_pos (by rw [hlen]; omega)]
    have hsp : m ++ sep :: B = (m ++ [sep]) ++ B := by simp
    have harr : m.length + 1 + cutScan sep B (n - 1) + 1 =
        (m ++ [sep]).length + (cutScan sep B (n - 1) + 1) := by
      simp only [List.length_append, List.length_cons, List.length_nil]
      omega
    rw [hsp, harr]
    rw [List.take_add, List.take_left, List.drop_left]
    rw [← List.drop_drop, List.drop_left]
    simp
  · rw [if_neg hle, if_neg (by rw [hlen]; omega)]
    simp

/-- Cutting a well-formed nonempty chunk buffer at `k ≥ 1` chunks splits it
exactly at the chunk boundary; a request at or past the last chunk absorbs
the whole buffer, which is that same boundary split. -/
theorem cut_chunksNat (cs : List (List Nat)) (k : Nat) (hwf : ChunksWF cs)
    (hne : cs ≠ []) (hk : 1 ≤ k) :
    cutAfterIndexN cs.flatten 10 (k : Int) =
      some ((cs.take k).flatten, (cs.drop k).flatten) := by
  induction hwf generalizing k with
  | nil => exact absurd rfl hne
  | single c hc hnl =>
    have hk' : (1 : Int) ≤ (k : Int) := by exact_mod_cast hk
    have hcount : ((c.dropLast.count 10 : Nat) : Int) < (k : Int) := by
      rw [List.count_eq_zero.mpr hnl]
      push_cast
      omega
    have habs := cut_absorb c 10 (k : Int) hc hk' hcount
    have ht : ([c] : List (List Nat)).take k = [c] :=
      List.take_of_length_le (by simpa using hk)
    have hd : ([c] : List (List Nat)).drop k = [] :=
      List.drop_eq_nil_of_le (by simpa using hk)
    rw [ht, hd, show ([c] : List (List Nat)).flatten = c by simp]
    simpa using habs
  | cons m cs hm hne' hwf ih =>
    have hB : cs.flatten ≠ [] := chunksWF_flatten_ne_nil hwf hne'
    have hfl : ((m ++ [10]) :: cs).flatten = m ++ 10 :: cs.flatten := by
      simp
    rcases Nat.lt_or_ge 1 k with hk2 | hk1
    · -- k ≥ 2: cross the first chunk and use the induction hypothesis
      have hkk : k - 1 + 1 = k := by omega
      have hstep := cut_step 10 m cs.flatten (k : Int) hm hB (by exact_mod_cast hk2)
      have hcast : ((k : Int) - 1) = ((k - 1 : Nat) : Int) := by omega
      rw [hfl, hstep, hcast, ih (k - 1) hne' (by omega)]
      cases hk3 : k with
      | zero => omega
      | succ k' =>
        simp only [Nat.add_sub_cancel, Option.map_some', List.take_succ_cons,
          List.drop_succ_cons, List.flatten_cons]
    · -- k = 1: break at the chunk's terminating newline
      have hk1' : k = 1 := by omega
      subst hk1'
      unfold cutAfterIndexN
      simp only [Nat.cast_one]
      rw [if_neg (by omega : ¬(1 : Int) ≤ 0)]
      rw [hfl]
      simp only [cutScan_first 10 m cs.flatten hm hB]
      have hlen : (m ++ 10 :: cs.flatten).length = m.length + 1 + cs.flatten.length := by
        simp only [List.length_append, List.length_cons]
        omega
      rw [if_pos (by rw [hlen]; have := List.length_pos.mpr hB; omega)]
      have hsp : m ++ 10 :: cs.flatten = (m ++ [10]) ++ cs.flatten := by simp
      have hml : m.length + 1 = (m ++ [10]).length := by simp
      rw [hsp, hml, List.take_left, List.drop_left]
      simp

/-- Version of `cut_chunksNat` for an integer chunk request. -/
theorem cut_chunks (cs : List (List Nat)) (n : Int) (hwf : ChunksWF cs)
    (hne : cs ≠ []) (hn : 1 ≤ n) :
    cutAfterIndexN cs.flatten 10 n =
      some ((cs.take n.toNat).flatten, (cs.drop n.toNat).flatten) := by
  have hcast : n = (n.toNat : Int) := by omega
  rw [hcast]
  exact cut_chunksNat cs n.toNat hwf hne (by omega)

/-- The streaming block loop agrees with the chunk-level reference renderer
whenever every block starts strictly after the previous one ended, spans at
least one line, and ends within the buffer. -/
theorem colorLoop_spec (blocks : List ProfileBlock) (cs : List (List Nat)) (pe : Int)
    (hwf : ChunksWF cs) (hok : blocksOk pe (pe + cs.length) blocks = true) :
    colorLoop cs.flatten blocks pe = some (renderSpecA cs blocks pe) := by
  induction blocks generalizing cs pe with
  | nil => rfl
  | cons b bs ih =>
    simp only [blocksOk, Bool.and_eq_true, decide_eq_true_eq] at hok
    obtain ⟨⟨h1, h2, h3⟩, hok'⟩ := hok
    have hlen2 : (2 : Int) ≤ (cs.length : Int) := by omega
    have hcs_ne : cs ≠ [] := by
      intro h
      rw [h] at hlen2
      simp at hlen2
    set k := (b.startLine - pe).toNat with hk
    set k' := (b.endLine - b.startLine).toNat with hk'
    have hcut1 := cut_chunks cs (b.startLine - pe) hwf hcs_ne (by omega)
    have hwf2 := chunksWF_drop hwf k
    have hdne : cs.drop k ≠ [] := by
      have hld : (cs.drop k).length = cs.length - k := List.length_drop k cs
      intro h
      rw [h] at hld
      simp only [List.length_nil] at hld
      omega
    have hcut2 := cut_chunks (cs.drop k) (b.endLine - b.startLine) hwf2 hdne (by omega)
    have hdd : (cs.drop k).drop k' = cs.drop (k + k') := by
      rw [List.drop_drop, Nat.add_comm]
    rw [hdd] at hcut2
    have hlend : ((cs.drop (k + k')).length : Int) = (cs.length : Int) - (k + k') := by
      rw [List.length_drop]
      omega
    have hrec := ih (cs.drop (k + k')) b.endLine (chunksWF_drop hwf (k + k'))
      (by
        have heq : b.endLine + ((cs.drop (k + k')).length : Int) = pe + cs.length := by
          rw [hlend]
          omega
        rw [heq]
        exact hok')
    simp only [colorLoop]
    rw [hcut1]
    dsimp only
    rw [hcut2]
    dsimp only
    rw [hrec]
    dsimp only
    simp only [renderSpecA]

/-! ### Tab replacement -/

theorem tabExpand_cons (a : Nat) (s : List Nat) :
    tabExpand (a :: s) = (if a = 9 then [32, 32] else [a]) ++ tabExpand s := by
  simp [tabExpand]

/-- Tab replacement leaves no tab byte behind. -/
theorem tabExpand_no_tab (s : List Nat) : 9 ∉ tabExpand s := by
  induction s with
  | nil => simp [tabExpand]
  | cons a s ih =>
    rw [tabExpand_cons]
    simp only [List.mem_append]
    rintro (h | h)
    · by_cases ha : a = 9
      · rw [if_pos ha] at h
        simp at h
      · rw [if_neg ha] at h
        simp at h
        exact ha h.symm
    · exact ih h

/-- Tab replacement is the identity on tab-free buffers. -/
theorem tabExpand_eq_self (s : List Nat) (h : 9 ∉ s) : tabExpand s = s := by
  induction s with
  | nil => rfl
  | cons a s ih =>
    have ha : a ≠ 9 := fun hh => h (by rw [hh]; exact List.mem_cons_self 9 s)
    rw [tabExpand_cons, if_neg ha, ih (fun hh => h (List.mem_cons_of_mem a hh))]
    rfl

/-- Every byte of the tab-expanded buffer is a space or a byte of the
original buffer. -/
theorem mem_tabExpand {x : Nat} {s : List Nat} (h : x ∈ tabExpand s) : x = 32 ∨ x ∈ s := by
  induction s with
  | nil => simp [tabExpand] at h
  | cons a rest ih =>
    rw [tabExpand_cons] at h
    rcases List.mem_append.mp h with hh | hh
    · by_cases ha : a = 9
      · rw [if_pos ha] at hh
        simp at hh
        left
        exact hh
      · rw [if_neg ha] at hh
        simp at hh
        right
        simp [hh]
    · rcases ih hh with h32 | hmem
      · left
        exact h32
      · right
        exact List.mem_cons_of_mem a hmem

/-! ### Format interpretation of the colored payloads -/

theorem printfNoArgs_nil : printfNoArgs [] = [] := rfl

theorem printfNoArgs_cons_ne (v : Nat) (rest : List Nat) (hv : v ≠ 37) :
    printfNoArgs (v :: rest) = v :: printfNoArgs rest := by
  rw [printfNoArgs.eq_def]
  simp only [if_neg hv]

theorem printfNoArgs_pct_pct (rest : List Nat) :
    printfNoArgs (37 :: 37 :: rest) = 37 :: printfNoArgs rest := by
  rw [printfNoArgs.eq_def]
  simp

theorem printfNoArgs_pct_verb (v : Nat) (rest : List Nat) (hv : v ≠ 37) :
    printfNoArgs (37 :: v :: rest) =
      [37, 33, v, 40, 77, 73, 83, 83, 73, 78, 71, 41] ++ printfNoArgs rest := by
  rw [printfNoArgs.eq_def]
  simp [if_neg hv]

/-- The zero-operand format interpretation is the identity on text without
the `%` byte. -/
theorem printfNoArgs_eq_self (s : List Nat) (h : (37 : Nat) ∉ s) : printfNoArgs s = s := by
  induction s using printfNoArgs.induct with
  | case1 => rfl
  | case2 => simp at h
  | case3 rest' ih => simp at h
  | case4 v rest' hv ih => simp at h
  | case5 v rest' hv ih =>
    have hr : (37 : Nat) ∉ rest' := fun hh => h (List.mem_cons_of_mem v hh)
    rw [printfNoArgs_cons_ne v rest' hv, ih hr]

/-- The format interpretation introduces no tab byte: diagnostics are built
from printable ASCII and the verb byte comes from the input. -/
theorem printfNoArgs_no_tab (s : List Nat) (h : (9 : Nat) ∉ s) :
    (9 : Nat) ∉ printfNoArgs s := by
  induction s using printfNoArgs.induct with
  | case1 => simp [printfNoArgs_nil]
  | case2 => decide
  | case3 rest' ih =>
    have hr : (9 : Nat) ∉ rest' := fun hh => h (by simp [hh])
    rw [printfNoArgs_pct_pct]
    simp only [List.mem_cons]
    rintro (hh | hh)
    · omega
    · exact ih hr hh
  | case4 v rest' hv ih =>
    have hr : (9 : Nat) ∉ rest' := fun hh => h (by simp [hh])
    have hv9 : v ≠ 9 := fun hh => h (by simp [hh])
    rw [printfNoArgs_pct_verb v rest' hv]
    intro hmem
    rcases List.mem_append.mp hmem with hh | hh
    · simp at hh
      exact hv9 hh.symm
    · exact ih hr hh
  | case5 v rest' hv ih =>
    have hr : (9 : Nat) ∉ rest' := fun hh => h (List.mem_cons_of_mem v hh)
    have hv9 : v ≠ 9 := fun hh => h (by rw [hh]; exact List.mem_cons_self 9 rest')
    rw [printfNoArgs_cons_ne v rest' hv]
    simp only [List.mem_cons]
    rintro (hh | hh)
    · exact hv9 hh.symm
    · exact ih hr hh

/-- Bytes of a flattened prefix of a chunk list are bytes of the whole
flattened chunk list. -/
theorem mem_flatten_take {l : List (List Nat)} {k : Nat} {x : Nat}
    (h : x ∈ (l.take k).flatten) : x ∈ l.flatten := by
  rw [← List.take_append_drop k l, List.flatten_append]
  exact List.mem_append_left _ h

/-- Bytes of a flattened suffix of a chunk list are bytes of the whole
flattened chunk list. -/
theorem mem_flatten_drop {l : List (List Nat)} {k : Nat} {x : Nat}
    (h : x ∈ (l.drop k).flatten) : x ∈ l.flatten := by
  rw [← List.take_append_drop k l, List.flatten_append]
  exact List.mem_append_right _ h

/-- Every colored payload of the reference renderer is drawn from the
flattened chunk buffer. -/
theorem renderSpecA_colored_mem (blocks : List ProfileBlock) :
    ∀ (cs : List (List Nat)) (pe : Int) (col : trueColor) (s : List Nat),
      Emit.colored col s ∈ renderSpecA cs blocks pe → ∀ x ∈ s, x ∈ cs.flatten := by
  induction blocks with
  | nil =>
    intro cs pe col s hmem x hx
    simp only [renderSpecA] at hmem
    split at hmem
    · simp at hmem
    · simp at hmem
  | cons b bs ih =>
    intro cs pe col s hmem x hx
    simp only [renderSpecA, List.mem_cons] at hmem
    rcases hmem with hmem | hmem | hmem
    · exact absurd hmem (by simp)
    · rw [Emit.colored.injEq] at hmem
      obtain ⟨hcol, hs⟩ := hmem
      subst hs
      exact mem_flatten_drop (mem_flatten_take hx)
    · exact mem_flatten_drop (ih _ b.endLine col s hmem x hx)

/-- Every payload printed by the block loop is drawn from its input buffer
(plus the appended trailing newline), so a tab-free input yields tab-free
printed text. -/
theorem colorLoop_no_tab (blocks : List ProfileBlock) (src : List Nat) (pe : Int)
    (evs : List Emit) (h : colorLoop src blocks pe = some evs) (hno : 9 ∉ src) :
    ∀ e ∈ evs, 9 ∉ stripEmit e := by
  induction blocks generalizing src pe evs with
  | nil =>
    simp only [colorLoop, Option.some.injEq] at h
    subst h
    intro e he
    by_cases hsrc : src = []
    · rw [if_neg (by simp [hsrc])] at he
      simp at he
    · rw [if_pos hsrc] at he
      rcases List.mem_singleton.mp he with rfl
      simp only [stripEmit, List.mem_append]
      rintro (hh | hh)
      · exact hno hh
      · simp at hh
  | cons b bs ih =>
    simp only [colorLoop] at h
    cases hc1 : cutAfterIndexN src 10 (b.startLine - pe) with
    | none =>
      rw [hc1] at h
      simp at h
    | some p1 =>
      obtain ⟨curr, src1⟩ := p1
      rw [hc1] at h
      dsimp only at h
      cases hc2 : cutAfterIndexN src1 10 (b.endLine - b.startLine) with
      | none =>
        rw [hc2] at h
        simp at h
      | some p2 =>
        obtain ⟨curr2, src2⟩ := p2
        rw [hc2] at h
        dsimp only at h
        cases hrec : colorLoop src2 bs b.endLine with
        | none =>
          rw [hrec] at h
          simp at h
        | some evs' =>
          rw [hrec] at h
          simp only [Option.some.injEq] at h
          subst h
          have hp1 : curr ++ src1 = src := cutAfterIndexN_parts src 10 _ _ hc1
          have hp2 : curr2 ++ src2 = src1 := cutAfterIndexN_parts src1 10 _ _ hc2
          have hcurr : 9 ∉ curr := fun hh => hno (hp1 ▸ List.mem_append_left src1 hh)
          have hsrc1 : 9 ∉ src1 := fun hh => hno (hp1 ▸ List.mem_append_right curr hh)
          have hcurr2 : 9 ∉ curr2 := fun hh => hsrc1 (hp2 ▸ List.mem_append_left src2 hh)
          have hsrc2 : 9 ∉ src2 := fun hh => hsrc1 (hp2 ▸ List.mem_append_right curr2 hh)
          intro e he
          rcases List.mem_cons.mp he with rfl | he2
          · exact hcurr
          rcases List.mem_cons.mp he2 with rfl | he3
          · exact printfNoArgs_no_tab curr2 hcurr2
          · exact ih src2 b.endLine evs' hrec hsrc2 e he3

/-! ### Claim theorems -/

/-- C5: for every byte slice `s`, separator byte, and count `n ≤ 0`,
`cutAfterIndexN s sep n` returns the entire remaining buffer `s` as the
before part and the empty slice as the after part. -/
theorem C5_cut_nonpositive (s : List Nat) (sep : Nat) (n : Int) (h : n ≤ 0) :
    cutAfterIndexN s sep n = some (s, []) := by
  simp [cutAfterIndexN, if_pos h]

/-- Witness for C5 at `s = [97]`, `sep = 10`, `n = 0`. -/
theorem C5_witness : cutAfterIndexN [97] 10 0 = some ([97], []) :=
  C5_cut_nonpositive [97] 10 0 (by decide)

/-- C6 counterexample: on the empty slice with `n = 1` the loop exits at
`i = 0`, the increment makes `i = 1`, and Go slices `s[1:]` with the lower
bound past the length — a run-time panic (`none`), so the claim that
`cutAfterIndexN` always returns an in-bounds split fails at `s = []`. -/
theorem C6_counterexample : cutAfterIndexN [] 10 1 = none := by decide

/-- C6 (amended): for every nonempty `s` (or any `s` when `n ≤ 0`),
`cutAfterIndexN` returns without any index passing the end of `s` (it
returns a pair rather than panicking), and the pair satisfies
`before ++ after = s`: no bytes dropped or duplicated. -/
theorem C6_cut_safe (s : List Nat) (sep : Nat) (n : Int) (h : s ≠ [] ∨ n ≤ 0) :
    (cutAfterIndexN s sep n).map (fun p => p.1 ++ p.2) = some s := by
  by_cases hn : n ≤ 0
  · simp [cutAfterIndexN, if_pos hn]
  · have hs : s ≠ [] := by
      rcases h with hs | hn2
      · exact hs
      · exact absurd hn2 hn
    have hb := cutScan_lt_length sep s n hs
    simp only [cutAfterIndexN, if_neg hn]
    rw [if_pos (by omega)]
    simp [List.take_append_drop]

/-- Witness for C6 at a nonempty buffer holding fewer separators than
requested. -/
theorem C6_witness :
    (cutAfterIndexN [97, 10] 10 5).map (fun p => p.1 ++ p.2) = some [97, 10] :=
  C6_cut_safe [97, 10] 10 5 (Or.inl (by decide))

/-- C7: a file identifier that begins with `.` or is absolute is returned
unchanged with no error; the result does not depend on the package map, so
no lookup is performed. -/
theorem C7_relative_or_absolute (pkgs : List (GoStr × Option Pkg)) (file : GoStr)
    (h : hasPrefix file ['.'] = true ∨ isAbs file = true) :
    findFile pkgs file = Except.ok file := by
  unfold findFile
  rcases h with h | h
  · rw [if_pos (by simp [h])]
  · rw [if_pos (by simp [h])]

/-- Witness for C7: `./local/file.go` is returned unchanged even against an
empty package map. -/
theorem C7_witness :
    findFile [] "./local/file.go".toList = Except.ok "./local/file.go".toList :=
  C7_relative_or_absolute [] "./local/file.go".toList (Or.inl (by decide))

/-- C8: when the observed package record for the identifier directory has
an empty directory and carries a resolution error message, `findFile` fails
with exactly that message. -/
theorem C8_package_error (pkgs : List (GoStr × Option Pkg)) (file ip msg : GoStr)
    (h1 : hasPrefix file ['.'] = false) (h2 : isAbs file = false)
    (h3 : mapLookup pkgs (pathDir file) = some ⟨ip, [], some msg⟩) :
    findFile pkgs file = Except.error msg := by
  unfold findFile
  rw [if_neg (by simp [h1, h2]), h3]
  dsimp only
  rw [if_neg (by simp)]

/-- Witness for C8: a record with `Dir:""` and `Error.Err:"build failed"`
makes resolution fail with the message `build failed`. -/
theorem C8_witness :
    findFile [("example.com/a".toList,
        some ⟨"example.com/a".toList, [], some "build failed".toList⟩)]
      "example.com/a/f.go".toList = Except.error "build failed".toList :=
  C8_package_error _ "example.com/a/f.go".toList "example.com/a".toList
    "build failed".toList (by decide) (by decide) (by decide)

/-- C9: when the directory component of a non-relative, non-absolute
identifier has no decoded record in the package map (the key is missing, or
only the seeded `nil` placeholder is stored), `findFile` fails with the
package-not-found error rather than returning a path. -/
theorem C9_package_missing (pkgs : List (GoStr × Option Pkg)) (file : GoStr)
    (h1 : hasPrefix file ['.'] = false) (h2 : isAbs file = false)
    (h3 : mapLookup pkgs (pathDir file) = none) :
    findFile pkgs file = Except.error (notFoundMsg file) := by
  unfold findFile
  rw [if_neg (by simp [h1, h2]), h3]

/-- Witness for C9: the map seeded from one profile file name, with zero
decoded records applied (the metadata query returned fewer records than
requested), retains only the `nil` placeholder, and resolution fails
with the not-found error. -/
theorem C9_witness :
    findFile (applyRecords (seedPkgs ["example.com/a/f.go".toList]).1 [])
      "example.com/a/f.go".toList =
      Except.error (notFoundMsg "example.com/a/f.go".toList) :=
  C9_package_missing _ "example.com/a/f.go".toList (by decide) (by decide) (by decide)

/-- C4: at the adjacent-block input (`StartLine` of the second block equal
to `EndLine` of the first), the loop does call `cutAfterIndexN` with
`N = 0` — but that call returns the entire remaining buffer as the before
part and empties the cursor (first conjunct, the call the loop makes with
the remaining source `"r\n"`), so the rest of the file is printed as
"uninstrumented" and the very next cut slices an empty buffer with a
positive count: a run-time panic (second conjunct).  The claim that the
`N ≤ 0` call does not advance the cursor describes the intended behavior,
not the code. -/
theorem C4_adjacent_blocks_bug :
    cutAfterIndexN [114, 10] 10 0 = some ([114, 10], []) ∧
      colorlines [112, 10, 113, 10, 114, 10] [⟨1, 2, 1⟩, ⟨2, 3, 0⟩] = none := by
  constructor
  · decide
  · decide

/-- C2 counterexample: the claim fails twice.  On the 8-line file
`"a\n"…"h\n"` with the single block `{StartLine 3, EndLine 6, Count 0}`,
the bytes printed inside the red background escape are exactly lines 4–6
(`"d\ne\nf\n"`), not lines 3–5 (`"c\nd\ne\n"`) as the claim states
(first two conjuncts).  And the red span is not even those lines verbatim
when they hold a `%`: on the 8-line file whose fourth line is `"%%\n"`,
the red-wrapped payload for the block goes through the zero-operand format
interpretation and its printed bytes differ from the line bytes (third
conjunct). -/
theorem C2_counterexample :
    (colorlines [97, 10, 98, 10, 99, 10, 100, 10, 101, 10, 102, 10, 103, 10, 104, 10]
        [⟨3, 6, 0⟩]).map redContent = some [100, 10, 101, 10, 102, 10] ∧
      ([100, 10, 101, 10, 102, 10] : List Nat) ≠ [99, 10, 100, 10, 101, 10] ∧
      stripEmit (Emit.colored red (((chunksOf [97, 10, 98, 10, 99, 10, 37, 37, 10, 101, 10, 102, 10, 103, 10, 104, 10]).drop 3).take 3).flatten) ≠
        (((chunksOf [97, 10, 98, 10, 99, 10, 37, 37, 10, 101, 10, 102, 10, 103, 10, 104, 10]).drop 3).take 3).flatten := by
  refine ⟨by decide, by decide, by decide⟩

/-- C2 (amended): on every tab-free, `%`-free 8-line source, the single
block `{StartLine 3, EndLine 6, Count 0}` makes `colorlines` print lines
1–3 uncolored, lines 4–6 wrapped in the red background escape, and lines
7–8 with no coverage coloring (the reset-prefixed remainder); the second
conjunct records that for these sources the red-wrapped payload survives
the format interpretation unchanged, so lines 4–6 reach stdout verbatim
inside the escapes. -/
theorem C2_block_3_6_colors_lines_4_to_6 (src : List Nat) (hno : (9 : Nat) ∉ src)
    (hpc : (37 : Nat) ∉ src) (hlen : (chunksOf src).length = 8) :
    (colorlines src [⟨3, 6, 0⟩] =
      some [Emit.plain ((chunksOf src).take 3).flatten,
        Emit.colored red (((chunksOf src).drop 3).take 3).flatten,
        Emit.leftover ((chunksOf src).drop 6).flatten]) ∧
      stripEmit (Emit.colored red (((chunksOf src).drop 3).take 3).flatten) =
        (((chunksOf src).drop 3).take 3).flatten := by
  have hstrip : stripEmit (Emit.colored red (((chunksOf src).drop 3).take 3).flatten) =
      (((chunksOf src).drop 3).take 3).flatten := by
    simp only [stripEmit]
    apply printfNoArgs_eq_self
    intro hx
    apply hpc
    have hx2 := mem_flatten_drop (mem_flatten_take hx)
    rwa [chunksOf_flatten] at hx2
  refine ⟨?_, hstrip⟩
  have hts : tabExpand src = src := tabExpand_eq_self src hno
  have hwf := chunksOf_wf src
  have hok : blocksOk 0 (0 + ((chunksOf src).length : Int)) [⟨3, 6, 0⟩] = true := by
    rw [hlen]
    decide
  have hspec := colorLoop_spec [⟨3, 6, 0⟩] (chunksOf src) 0 hwf hok
  rw [chunksOf_flatten] at hspec
  have hd6 : (chunksOf src).drop 6 ≠ [] := by
    have hld : ((chunksOf src).drop 6).length = (chunksOf src).length - 6 :=
      List.length_drop 6 (chunksOf src)
    rw [hlen] at hld
    intro h
    rw [h] at hld
    simp at hld
  have hfl6 : ((chunksOf src).drop 6).flatten ≠ [] :=
    chunksWF_flatten_ne_nil (chunksWF_drop hwf 6) hd6
  unfold colorlines
  rw [hts, hspec]
  congr 1
  have e1 : ((3 : Int) - 0).toNat = 3 := by decide
  have e2 : ((6 : Int) - 3).toNat = 3 := by decide
  have e3 : (⟨3, 6, 0⟩ : ProfileBlock).count = 0 := rfl
  have e4 : (⟨3, 6, 0⟩ : ProfileBlock).startLine = 3 := rfl
  have e5 : (⟨3, 6, 0⟩ : ProfileBlock).endLine = 6 := rfl
  simp only [renderSpecA, e3, e4, e5, e1, e2, if_true]
  rw [show (3 : Nat) + 3 = 6 from rfl]
  rw [if_pos hfl6]

/-- C3 counterexample: the per-block description fails three ways on the
code.  First conjunct: on a source whose first line holds a tab, the
emitted chunks are drawn from the tab-expanded bytes, not from the source
verbatim.  Second conjunct: with two adjacent blocks (`StartLine` of the
second equal to `EndLine` of the first), the second block is owed zero
uncolored chunks, but the code prints the whole remaining source uncolored
and then panics, instead of the described per-block emission.  Third
conjunct: a colored chunk holding a `%` (here the second line `"%d\n"` of
`"a\n%d\n"`, colored green by the block `{1, 2, Count 1}`) is not
emitted wrapped verbatim — its bytes pass through the zero-operand format
interpretation of `fmt.Printf(c.Bg(curr))` and change. -/
theorem C3_counterexample :
    colorlines [9, 49, 10, 50, 10] [⟨1, 2, 1⟩] ≠
        some (renderSpecA (chunksOf [9, 49, 10, 50, 10]) [⟨1, 2, 1⟩] 0) ∧
      colorlines [120, 10, 121, 10, 122, 10] [⟨1, 2, 0⟩, ⟨2, 3, 1⟩] ≠
        some (renderSpecA (chunksOf [120, 10, 121, 10, 122, 10]) [⟨1, 2, 0⟩, ⟨2, 3, 1⟩] 0) ∧
      stripEmit (Emit.colored green (((chunksOf [97, 10, 37, 100, 10]).drop 1).take 1).flatten) ≠
        (((chunksOf [97, 10, 37, 100, 10]).drop 1).take 1).flatten := by
  refine ⟨by decide, by decide, by decide⟩

/-- C3 (amended): for every `%`-free source and every block list in which
each block starts strictly after the previous block ended (first block at
line 1 or later), spans at least one line, and ends within the file,
`colorlines` emits exactly the claimed sequence over the chunks of the
tab-expanded source: per block, the next `StartLine - prevEndLine` chunks
uncolored, then the next `EndLine - StartLine` chunks wrapped in the red
(count 0) or green (count positive) background escape, with `prevEndLine`
advancing to the block EndLine, and finally the reset-prefixed unconsumed
remainder; the second conjunct records that every colored payload survives
the format interpretation unchanged, so the colored chunks reach stdout
verbatim inside their escapes. -/
theorem C3_streaming_refines_spec (src : List Nat) (blocks : List ProfileBlock)
    (hpc : (37 : Nat) ∉ src)
    (hok : blocksOk 0 ((chunksOf (tabExpand src)).length : Int) blocks = true) :
    (colorlines src blocks =
      some (renderSpecA (chunksOf (tabExpand src)) blocks 0)) ∧
      ∀ col s, Emit.colored col s ∈ renderSpecA (chunksOf (tabExpand src)) blocks 0 →
        stripEmit (Emit.colored col s) = s := by
  constructor
  · have hwf := chunksOf_wf (tabExpand src)
    have hspec := colorLoop_spec blocks (chunksOf (tabExpand src)) 0 hwf
      (by rw [zero_add]; exact hok)
    rw [chunksOf_flatten] at hspec
    unfold colorlines
    exact hspec
  · intro col s hmem
    simp only [stripEmit]
    apply printfNoArgs_eq_self
    intro hx
    have hx2 := renderSpecA_colored_mem blocks (chunksOf (tabExpand src)) 0 col s hmem 37 hx
    rw [chunksOf_flatten] at hx2
    rcases mem_tabExpand hx2 with h32 | hmem2
    · omega
    · exact hpc hmem2

/-- Witness for C3 at a three-line file with one block spanning lines 2–3
of the consumption (strictly separated, in range). -/
theorem C3_witness :
    (colorlines [65, 10, 66, 10, 67, 10] [⟨1, 3, 0⟩] =
      some (renderSpecA (chunksOf (tabExpand [65, 10, 66, 10, 67, 10])) [⟨1, 3, 0⟩] 0)) ∧
      ∀ col s,
        Emit.colored col s ∈ renderSpecA (chunksOf (tabExpand [65, 10, 66, 10, 67, 10]))
          [⟨1, 3, 0⟩] 0 →
        stripEmit (Emit.colored col s) = s :=
  C3_streaming_refines_spec [65, 10, 66, 10, 67, 10] [⟨1, 3, 0⟩] (by decide) (by decide)

/-- Witness for C2 at the concrete 8-line file `"1\n"…"8\n"`. -/
theorem C2_witness :
    (colorlines [49, 10, 50, 10, 51, 10, 52, 10, 53, 10, 54, 10, 55, 10, 56, 10] [⟨3, 6, 0⟩] =
      some [Emit.plain ((chunksOf [49, 10, 50, 10, 51, 10, 52, 10, 53, 10, 54, 10, 55, 10, 56, 10]).take 3).flatten,
        Emit.colored red (((chunksOf [49, 10, 50, 10, 51, 10, 52, 10, 53, 10, 54, 10, 55, 10, 56, 10]).drop 3).take 3).flatten,
        Emit.leftover ((chunksOf [49, 10, 50, 10, 51, 10, 52, 10, 53, 10, 54, 10, 55, 10, 56, 10]).drop 6).flatten]) ∧
      stripEmit (Emit.colored red (((chunksOf [49, 10, 50, 10, 51, 10, 52, 10, 53, 10, 54, 10, 55, 10, 56, 10]).drop 3).take 3).flatten) =
        (((chunksOf [49, 10, 50, 10, 51, 10, 52, 10, 53, 10, 54, 10, 55, 10, 56, 10]).drop 3).take 3).flatten :=
  C2_block_3_6_colors_lines_4_to_6 [49, 10, 50, 10, 51, 10, 52, 10, 53, 10, 54, 10, 55, 10, 56, 10]
    (by decide) (by decide) (by decide)

/-- C1 counterexample: the round-trip claim fails three ways on the code.
First conjunct: the block list `[{1,2}]` exactly partitions the two-line
file `"\t\n\n"` (first block at line 1, last EndLine the line count), yet
the escape-stripped output is the tab-expanded text `"  \n\n"`, not the
source.  Second conjunct: the same single-block partition of the tab-free
two-line file `"a\n%%\n"` strips to `"a\n%\n"`, because the colored
chunk is the format string of `fmt.Printf` and its `%%` prints as one `%`.
Third conjunct: the chained block list `[{1,2},{2,3}]` exactly partitions
the three-line file `"a\nb\nc\n"`, yet the renderer panics (the
zero-count cut empties the cursor, and the next cut slices past the end),
so no well-formed output is produced at all. -/
theorem C1_counterexample :
    (colorlines [9, 10, 10] [⟨1, 2, 1⟩]).map stripConcat ≠ some [9, 10, 10] ∧
      (colorlines [97, 10, 37, 37, 10] [⟨1, 2, 1⟩]).map stripConcat ≠
        some [97, 10, 37, 37, 10] ∧
      colorlines [97, 10, 98, 10, 99, 10] [⟨1, 2, 1⟩, ⟨2, 3, 0⟩] = none := by
  refine ⟨by decide, by decide, by decide⟩

/-- C1 (amended): for every nonempty tab-free, `%`-free source and the
one-block partition `[{StartLine 1, EndLine N}]` of its line range
`[1, N]`, the concatenation of everything `colorlines` emits — the colored
chunk passing through the zero-operand format interpretation of its
`fmt.Printf` call — with all ANSI color escape sequences stripped, equals
the original source bytes exactly. -/
theorem C1_single_block_round_trip (src : List Nat) (c : Int) (hne : src ≠ [])
    (hno : (9 : Nat) ∉ src) (hpc : (37 : Nat) ∉ src) :
    (colorlines src [⟨1, ((chunksOf src).length : Int), c⟩]).map stripConcat = some src := by
  have hts : tabExpand src = src := tabExpand_eq_self src hno
  have hwf := chunksOf_wf src
  have hcne : chunksOf src ≠ [] := chunksOf_ne_nil src hne
  have hlpos : 1 ≤ (chunksOf src).length := List.length_pos.mpr hcne
  rcases Nat.lt_or_ge (chunksOf src).length 2 with hN1 | hN2
  · -- a single chunk: the first cut absorbs the whole buffer and the
    -- colored cut is asked for zero chunks
    have hN : (chunksOf src).length = 1 := by omega
    have hcount : src.dropLast.count 10 = 0 := by
      obtain ⟨c0, hc0⟩ : ∃ c0, chunksOf src = [c0] := by
        cases hcs : chunksOf src with
        | nil => exact absurd hcs hcne
        | cons c0 t =>
          cases t with
          | nil => exact ⟨c0, rfl⟩
          | cons u v =>
            rw [hcs] at hN
            simp at hN
      have hsrc : src = c0 := by
        have hfl := chunksOf_flatten src
        rw [hc0] at hfl
        simpa using hfl.symm
      rw [hc0] at hwf
      cases hwf with
      | single c1 hc1 hnl =>
        rw [hsrc]
        exact List.count_eq_zero.mpr hnl
      | cons m t hm hne' hwf' => exact absurd rfl hne'
    have habs : cutAfterIndexN src 10 1 = some (src, []) :=
      cut_absorb src 10 1 hne (le_refl 1) (by rw [hcount]; simp)
    unfold colorlines
    rw [hts, hN]
    simp only [Nat.cast_one]
    have p1 : (⟨1, (1 : Int), c⟩ : ProfileBlock).startLine = 1 := rfl
    have p2 : (⟨1, (1 : Int), c⟩ : ProfileBlock).endLine = 1 := rfl
    simp only [colorLoop, p1, p2, sub_zero]
    rw [habs]
    dsimp only
    rw [show (1 : Int) - 1 = 0 from by norm_num]
    rw [show cutAfterIndexN [] 10 0 = some ([], []) from by decide]
    dsimp only
    simp [stripConcat, stripEmit, printfNoArgs_nil]
  · -- at least two chunks: the block satisfies the chunk-aligned conditions
    have p1 : (⟨1, ((chunksOf src).length : Int), c⟩ : ProfileBlock).startLine = 1 := rfl
    have p2 : (⟨1, ((chunksOf src).length : Int), c⟩ : ProfileBlock).endLine =
        ((chunksOf src).length : Int) := rfl
    have hok : blocksOk 0 (0 + ((chunksOf src).length : Int))
        [⟨1, ((chunksOf src).length : Int), c⟩] = true := by
      simp only [blocksOk, p1, p2, Bool.and_eq_true, decide_eq_true_eq]
      refine ⟨⟨by omega, by omega, by omega⟩, trivial⟩
    have hspec := colorLoop_spec [⟨1, ((chunksOf src).length : Int), c⟩] (chunksOf src) 0 hwf hok
    rw [chunksOf_flatten] at hspec
    unfold colorlines
    rw [hts, hspec]
    simp only [Option.map_some', Option.some.injEq]
    have e1 : (1 : Int).toNat = 1 := rfl
    have e2 : (((chunksOf src).length : Int) - 1).toNat = (chunksOf src).length - 1 := by omega
    simp only [renderSpecA, p1, p2, sub_zero, e1, e2]
    have e3 : 1 + ((chunksOf src).length - 1) = (chunksOf src).length := by omega
    rw [e3, List.drop_length]
    simp only [List.flatten_nil]
    rw [if_neg (fun hh => hh rfl : ¬(([] : List Nat) ≠ []))]
    have e4 : ((chunksOf src).drop 1).take ((chunksOf src).length - 1) = (chunksOf src).drop 1 := by
      apply List.take_of_length_le
      rw [List.length_drop]
    rw [e4]
    simp only [stripConcat, List.map_cons, List.map_nil, stripEmit, List.flatten_cons,
      List.flatten_nil, List.append_nil]
    have hpc2 : (37 : Nat) ∉ ((chunksOf src).drop 1).flatten := by
      intro hx
      apply hpc
      have hx2 := mem_flatten_drop hx
      rwa [chunksOf_flatten] at hx2
    rw [printfNoArgs_eq_self _ hpc2]
    rw [← List.flatten_append, List.take_append_drop, chunksOf_flatten]

/-- Witness for C1 at the two-line source `"hi\n!"` (no trailing newline)
with the single covering block `{1, 2}`. -/
theorem C1_witness :
    (colorlines [104, 105, 10, 33]
        [⟨1, ((chunksOf [104, 105, 10, 33]).length : Int), 7⟩]).map stripConcat =
      some [104, 105, 10, 33] :=
  C1_single_block_round_trip [104, 105, 10, 33] 7 (by decide) (by decide) (by decide)

/-- C10: `colorlines` replaces every tab byte with two spaces before
emitting anything: its output coincides with its output on the tab-expanded
source, and no emitted byte is a tab, so an output line whose source line
contained a tab necessarily differs from the original source bytes. -/
theorem C10_tab_expansion (src : List Nat) (blocks : List ProfileBlock)
    (evs : List Emit) (h : colorlines src blocks = some evs) :
    colorlines (tabExpand src) blocks = some evs ∧
      ∀ e ∈ evs, (9 : Nat) ∉ stripEmit e := by
  constructor
  · unfold colorlines at h ⊢
    rw [tabExpand_eq_self (tabExpand src) (tabExpand_no_tab src)]
    exact h
  · unfold colorlines at h
    exact colorLoop_no_tab blocks (tabExpand src) 0 evs h (tabExpand_no_tab src)

/-- Witness for C10 at the one-line source `"\t\n"` with no blocks: the
emitted remainder is the tab-expanded `"  \n"`. -/
theorem C10_witness :
    colorlines (tabExpand [9, 10]) [] = some [Emit.leftover [32, 32, 10]] ∧
      ∀ e ∈ [Emit.leftover ([32, 32, 10] : List Nat)], (9 : Nat) ∉ stripEmit e :=
  C10_tab_expansion [9, 10] [] [Emit.leftover [32, 32, 10]] (by decide)

end Gocov